import Mathlib

/-!
Verification of the srk_diagonal diagnostics harness.

The development shallowly embeds diagnostics/srk_diagonal.py.  The SDE
integrators, the Brownian-path generator and the analytical sampler are
external services (out of scope per the specification); they are
abstracted as an environment of functions, and each experiment is
embedded as a function of that environment which returns its result
together with the ordered trace of observable effects (noise-path
construction, solver invocations, image files written).
-/

namespace SrkDiagonal

/-- A state batch: a rectangular array indexed by (batch index, dimension),
embedded as a list of rows of real entries. -/
abbrev Tensor : Type := List (List ℝ)

/-- torch.ones(b, d): the b by d batch of ones. -/
def ones (b d : Nat) : Tensor :=
  List.replicate b (List.replicate d (1 : ℝ))

/-- torch.zeros_like(y): a batch of zeros with the shape of y. -/
def zeros_like (y : Tensor) : Tensor :=
  y.map (fun row => row.map (fun _ => (0 : ℝ)))

/-- Python runtime errors relevant to the harness. -/
inductive PyErr : Type where
  | nameError : PyErr
  | valueError : PyErr
  | runtimeError : PyErr
deriving DecidableEq

/-- The module globals that the two experiment functions read.  The name
device is assigned only inside the dunder-main block of the module, so it
is bound (some dev) exactly when the module runs as the main program. -/
structure Globals : Type where
  device : Option String

/-- Globals as bound by the dunder-main block: device is assigned. -/
def mainGlobals : Globals := ⟨some "cpu"⟩

/-- Globals after a mere import of the module: the dunder-main block did
not run, so the global name device is unbound. -/
def importGlobals : Globals := ⟨none⟩

/-- BrownianPath(t0, w0): a noise realization anchored at time t0 with
initial value w0. -/
structure BrownianPath : Type where
  t0 : ℝ
  w0 : Tensor

/-- Observable effects of one experiment run, in program order. -/
inductive Event : Type where
  | bmNew : BrownianPath → Event
  | solverCall : String → List ℝ → ℝ → BrownianPath → List (String × Bool) → Event
  | analyticalCall : List ℝ → BrownianPath → Event
  | saveFig : String → Event

/-- Is the event the construction of a noise realization. -/
def Event.isBmNew : Event → Bool
  | .bmNew _ => true
  | _ => false

/-- Is the event the write of an image file. -/
def Event.isSaveFig : Event → Bool
  | .saveFig _ => true
  | _ => false

/-- The noise realization passed by a solver or analytical call. -/
def Event.callBm : Event → Option BrownianPath
  | .solverCall _ _ _ bm _ => some bm
  | .analyticalCall _ bm => some bm
  | _ => none

/-- The time grid passed by a solver or analytical call. -/
def Event.callTs : Event → Option (List ℝ)
  | .solverCall _ ts _ _ _ => some ts
  | .analyticalCall ts _ => some ts
  | _ => none

/-- The scheme selector of a solver call. -/
def Event.methodOf : Event → Option String
  | .solverCall m _ _ _ _ => some m
  | _ => none

/-- The scheme-specific options of a solver call. -/
def Event.optionsOf : Event → Option (List (String × Bool))
  | .solverCall _ _ _ _ o => some o
  | _ => none

/-- The abstract integration and analytical-sampling services consumed by
the harness.  sdeint receives (initial batch, time grid, step size, noise
realization, scheme selector, scheme options) and returns a trajectory,
one state batch per requested time point; analytical_sample receives the
same data minus step size and selector. -/
structure SolverEnv : Type where
  sdeint : Tensor → List ℝ → ℝ → BrownianPath → String → List (String × Bool) → List Tensor
  analytical_sample : Tensor → List ℝ → BrownianPath → List Tensor

/-- Python tuple unpacking a, b = xs: succeeds exactly on two-element
lists. -/
def unpack2 {α : Type} : List α → Option (α × α)
  | [a, b] => some (a, b)
  | _ => none

/-- torch.linspace(a, b, steps): evenly spaced points from a to b
inclusive. -/
noncomputable def linspace (a b : ℝ) (steps : Nat) : List ℝ :=
  (List.range steps).map (fun (i : Nat) => a + (b - a) * (i : ℝ) / ((steps - 1 : Nat) : ℝ))

/-- Shape of a state batch, read off the nested-list representation. -/
def tensorShape (m : Tensor) : List Nat :=
  [m.length, (m.headD []).length]

/-- Shape of a trajectory (time, batch, dimension). -/
def trajShape (tr : List Tensor) : List Nat :=
  tr.length :: tensorShape (tr.headD [])

/-- torch Tensor.squeeze at shape level: drops every axis of size one. -/
def squeezeShape (s : List Nat) : List Nat :=
  s.filter (fun n => decide (n ≠ 1))

/-- torch Tensor.t at shape level: transposes a tensor of at most two
dimensions and raises otherwise. -/
def tShape (s : List Nat) : Option (List Nat) :=
  if s.length ≤ 2 then some s.reverse else none

/-- Number of figures the per-row plotting loop of inspect_sample emits
for a trajectory of the given (time, batch, dimension) shape: the first
axis of the squeezed-then-transposed array when that array is
two-dimensional, and a raised error otherwise. -/
def figCount (s : List Nat) : Option Nat :=
  match tShape (squeezeShape s) with
  | some (n :: _ :: _) => some n
  | _ => none

/-- The flattened list of squared entrywise differences of two state
batches. -/
noncomputable def sqDiffs (x y : Tensor) : List ℝ :=
  (x.zip y).flatMap (fun rr => (rr.1.zip rr.2).map (fun p => (p.1 - p.2) ^ 2))

/-- Modelled from the spec: the error metric of diagnostics/utils.py is
not included under src.  Per the specification it returns the arithmetic
mean, over every batch-and-dimension entry, of the squared elementwise
difference of two state batches of identical shape. -/
noncomputable def compute_mse (x y : Tensor) : ℝ :=
  (sqDiffs x y).sum / ((sqDiffs x y).length : ℝ)

/-- Total number of entries of a state batch. -/
def numEntries (x : Tensor) : Nat :=
  (x.map List.length).sum

/-- Two state batches have identical shape. -/
def SameShape (x y : Tensor) : Prop :=
  x.length = y.length ∧ ∀ p ∈ x.zip y, p.1.length = p.2.length

/-- The step-size series of the Convergence-Order Experiment:
dts = tuple(2 ** -i for i in range(1, 9)). -/
noncomputable def dts : List ℝ :=
  (List.range' 1 8).map (fun (i : Nat) => (2 : ℝ) ^ (-(i : ℤ)))

/-- Sum of the x values of a point list. -/
noncomputable def sumX (xs : List ℝ) : ℝ := xs.sum

/-- Sum of the squared x values. -/
noncomputable def sumXX (xs : List ℝ) : ℝ := (xs.map (fun x => x ^ 2)).sum

/-- Sum of the pointwise products of paired x and y values. -/
noncomputable def sumXY (xs ys : List ℝ) : ℝ :=
  ((xs.zip ys).map (fun p => p.1 * p.2)).sum

/-- Modelled from the spec: the regression primitive consumed by the
harness (scipy.stats.linregress) is an external service specified as
ordinary least squares on two equal-length numeric sequences.  This is
the closed-form least-squares slope. -/
noncomputable def linregress_slope (xs ys : List ℝ) : ℝ :=
  ((xs.length : ℝ) * sumXY xs ys - sumX xs * ys.sum) /
    ((xs.length : ℝ) * sumXX xs - sumX xs ^ 2)

/-- Modelled from the spec: the least-squares intercept paired with
linregress_slope. -/
noncomputable def linregress_intercept (xs ys : List ℝ) : ℝ :=
  (ys.sum - linregress_slope xs ys * sumX xs) / (xs.length : ℝ)

/-- The residual sum of squares of the line with intercept a and slope b
on the paired points of xs and ys. -/
noncomputable def residSum (xs ys : List ℝ) (a b : ℝ) : ℝ :=
  ((xs.zip ys).map (fun p => (p.2 - (a + b * p.1)) ^ 2)).sum

/-- Sum of the residuals of the line with intercept a and slope b. -/
noncomputable def resLin (xs ys : List ℝ) (a b : ℝ) : ℝ :=
  ((xs.zip ys).map (fun p => p.2 - (a + b * p.1))).sum

/-- Sum of the x-weighted residuals of the line with intercept a and
slope b. -/
noncomputable def resLinX (xs ys : List ℝ) (a b : ℝ) : ℝ :=
  ((xs.zip ys).map (fun p => p.1 * (p.2 - (a + b * p.1)))).sum

/-- The list of squared affine offsets used to complete the square in
the least-squares argument. -/
noncomputable def quadTerm (xs : List ℝ) (u v : ℝ) : List ℝ :=
  xs.map (fun x => (u + v * x) ^ 2)

/-- The body of the step-size loop of inspect_strong_order: four solver
invocations against one shared noise realization, each destructured as
(initial, terminal), and the three terminal mean-squared errors.  Returns
the optional error triple together with the calls made (a failed
destructuring aborts the body, so later calls are not made). -/
noncomputable def strong_order_step (env : SolverEnv) (y0 : Tensor) (ts : List ℝ)
    (bm : BrownianPath) (dt : ℝ) : Option (ℝ × ℝ × ℝ) × List Event :=
  let e1 : Event := .solverCall "euler" ts dt bm []
  match unpack2 (env.sdeint y0 ts dt bm "euler" []) with
  | none => (none, [e1])
  | some (_, ys_euler) =>
    let e2 : Event := .solverCall "milstein" ts dt bm []
    match unpack2 (env.sdeint y0 ts dt bm "milstein" []) with
    | none => (none, [e1, e2])
    | some (_, ys_milstein) =>
      let e3 : Event := .solverCall "srk" ts dt bm [("trapezoidal_approx", false)]
      match unpack2 (env.sdeint y0 ts dt bm "srk" [("trapezoidal_approx", false)]) with
      | none => (none, [e1, e2, e3])
      | some (_, ys_srk) =>
        let e4 : Event := .analyticalCall ts bm
        match unpack2 (env.analytical_sample y0 ts bm) with
        | none => (none, [e1, e2, e3, e4])
        | some (_, ys_analytical) =>
          (some (compute_mse ys_euler ys_analytical,
                 compute_mse ys_milstein ys_analytical,
                 compute_mse ys_srk ys_analytical),
           [e1, e2, e3, e4])

/-- Sequential loop over the step sizes, accumulating loop-body results
and effect traces; a failing body aborts the loop, as an uncaught Python
exception would. -/
def runSteps {α : Type} (f : ℝ → Option α × List Event) :
    List ℝ → Option (List α) × List Event
  | [] => (some [], [])
  | dt :: rest =>
    match f dt with
    | (some a, ev) =>
      match runSteps f rest with
      | (some as, ev2) => (some (a :: as), ev ++ ev2)
      | (none, ev2) => (none, ev ++ ev2)
    | (none, ev) => (none, ev)

/-- Result record of inspect_strong_order: the three error series and the
three fitted slopes. -/
structure StrongOut : Type where
  euler_mses : List ℝ
  milstein_mses : List ℝ
  srk_mses : List ℝ
  euler_slope : ℝ
  milstein_slope : ℝ
  srk_slope : ℝ

/-- inspect_strong_order of diagnostics/srk_diagonal.py: over the
two-point grid [0, 5] and the step sizes dts, run the three schemes and
the analytical sampler against one shared noise realization, keep the
terminal mean-squared errors, and fit log-log regression lines.  The
reads of the global name device raise NameError when it is unbound. -/
noncomputable def inspect_strong_order (g : Globals) (env : SolverEnv) :
    Except PyErr StrongOut × List Event :=
  match g.device with
  | none => (.error .nameError, [])
  | some _ =>
    let batch_size : Nat := 4096
    let d : Nat := 10
    let ts : List ℝ := [0, 5]
    let t0 : ℝ := 0
    let y0 : Tensor := ones batch_size d
    let bm : BrownianPath := ⟨t0, zeros_like y0⟩
    match runSteps (strong_order_step env y0 ts bm) dts with
    | (none, ev) => (.error .valueError, Event.bmNew bm :: ev)
    | (some triples, ev) =>
      let euler_mses := triples.map (fun t => t.1)
      let milstein_mses := triples.map (fun t => t.2.1)
      let srk_mses := triples.map (fun t => t.2.2)
      let lx := dts.map Real.log
      let euler_slope := linregress_slope lx (euler_mses.map (fun m => Real.log m / 2))
      let milstein_slope := linregress_slope lx (milstein_mses.map (fun m => Real.log m / 2))
      let srk_slope := linregress_slope lx (srk_mses.map (fun m => Real.log m / 2))
      (.ok ⟨euler_mses, milstein_mses, srk_mses, euler_slope, milstein_slope, srk_slope⟩,
       Event.bmNew bm :: ev ++ [Event.saveFig "rate"])

/-- inspect_sample of diagnostics/srk_diagonal.py: over a dense 100-point
grid on [0, 5], run the three schemes and the analytical sampler against
one shared noise realization, then squeeze and transpose each trajectory
and save one figure per row of the result.  The read of the global name
device raises NameError when it is unbound. -/
noncomputable def inspect_sample (g : Globals) (env : SolverEnv) :
    Except PyErr Unit × List Event :=
  match g.device with
  | none => (.error .nameError, [])
  | some _ =>
    let batch_size : Nat := 32
    let d : Nat := 1
    let steps : Nat := 100
    let ts : List ℝ := linspace 0 5 steps
    let t0 : ℝ := ts.headD 0
    let dt : ℝ := (1e-1 : ℝ)
    let y0 : Tensor := ones batch_size d
    let bm : BrownianPath := ⟨t0, zeros_like y0⟩
    let ys_euler := env.sdeint y0 ts dt bm "euler" []
    let ys_milstein := env.sdeint y0 ts dt bm "milstein" []
    let ys_srk := env.sdeint y0 ts dt bm "srk" [("trapezoidal_approx", false)]
    let ys_analytical := env.analytical_sample y0 ts bm
    let callEvs : List Event :=
      [.bmNew bm,
       .solverCall "euler" ts dt bm [],
       .solverCall "milstein" ts dt bm [],
       .solverCall "srk" ts dt bm [("trapezoidal_approx", false)],
       .analyticalCall ts bm]
    match figCount (trajShape ys_euler), figCount (trajShape ys_milstein),
          figCount (trajShape ys_srk), figCount (trajShape ys_analytical) with
    | some ne, some nm, some nk, some na =>
      let n := min (min ne nm) (min nk na)
      (.ok (), callEvs ++ (List.range n).map (fun i => Event.saveFig (toString i)))
    | _, _, _, _ => (.error .runtimeError, callEvs)

/-- An IEEE-style extended value: finite, positive infinity, negative
infinity, or not-a-number. -/
inductive NF : Type where
  | fin : ℝ → NF
  | pinf : NF
  | ninf : NF
  | nan : NF

/-- Is the extended value a finite number. -/
def NF.isFinite : NF → Bool
  | .fin _ => true
  | _ => false

/-- IEEE negation of an extended value. -/
def NF.neg : NF → NF
  | .fin a => .fin (-a)
  | .pinf => .ninf
  | .ninf => .pinf
  | .nan => .nan

/-- IEEE addition of extended values: opposite infinities give nan. -/
def NF.add : NF → NF → NF
  | .nan, _ => .nan
  | _, .nan => .nan
  | .fin a, .fin b => .fin (a + b)
  | .fin _, .pinf => .pinf
  | .pinf, .fin _ => .pinf
  | .pinf, .pinf => .pinf
  | .fin _, .ninf => .ninf
  | .ninf, .fin _ => .ninf
  | .ninf, .ninf => .ninf
  | .pinf, .ninf => .nan
  | .ninf, .pinf => .nan

/-- IEEE subtraction of extended values. -/
def NF.sub (p q : NF) : NF := p.add q.neg

/-- IEEE multiplication of extended values: zero times infinity is nan,
a nonzero finite factor scales an infinity by its sign. -/
noncomputable def NF.mul : NF → NF → NF
  | .nan, _ => .nan
  | _, .nan => .nan
  | .fin a, .fin b => .fin (a * b)
  | .fin a, .pinf => if 0 < a then .pinf else if a < 0 then .ninf else .nan
  | .pinf, .fin a => if 0 < a then .pinf else if a < 0 then .ninf else .nan
  | .fin a, .ninf => if 0 < a then .ninf else if a < 0 then .pinf else .nan
  | .ninf, .fin a => if 0 < a then .ninf else if a < 0 then .pinf else .nan
  | .pinf, .pinf => .pinf
  | .ninf, .ninf => .pinf
  | .pinf, .ninf => .ninf
  | .ninf, .pinf => .ninf

/-- IEEE division of extended values, in the cases the harness can
reach: nan propagates, infinity over a nonzero finite divisor keeps or
flips sign, finite over finite is real division with signed-infinity
results for a zero divisor, infinity over infinity is nan. -/
noncomputable def NF.div : NF → NF → NF
  | .nan, _ => .nan
  | _, .nan => .nan
  | .fin a, .fin b =>
      if b = 0 then (if a = 0 then .nan else if 0 < a then .pinf else .ninf)
      else .fin (a / b)
  | .fin _, .pinf => .fin 0
  | .fin _, .ninf => .fin 0
  | .pinf, .fin b => if 0 < b then .pinf else if b < 0 then .ninf else .pinf
  | .ninf, .fin b => if 0 < b then .ninf else if b < 0 then .pinf else .ninf
  | .pinf, .pinf => .nan
  | .pinf, .ninf => .nan
  | .ninf, .pinf => .nan
  | .ninf, .ninf => .nan

/-- Sum of a list of extended values, as numpy reduces it. -/
def NF.listSum (l : List NF) : NF := l.foldr NF.add (.fin 0)

/-- numpy natural logarithm of a double: finite positive arguments give
the real logarithm, zero gives negative infinity, negative arguments
give nan. -/
noncomputable def nplog (x : ℝ) : NF :=
  if 0 < x then .fin (Real.log x) else if x = 0 then .ninf else .nan

/-- The least-squares slope formula evaluated in IEEE extended values. -/
noncomputable def linregressNF (xs ys : List NF) : NF :=
  let n : NF := .fin (xs.length : ℝ)
  let sx := NF.listSum xs
  let sy := NF.listSum ys
  let sxy := NF.listSum ((xs.zip ys).map (fun p => p.1.mul p.2))
  let sxx := NF.listSum (xs.map (fun x => x.mul x))
  ((n.mul sxy).sub (sx.mul sy)).div ((n.mul sxx).sub (sx.mul sx))

/-- The convergence-fit slope of inspect_strong_order as numpy and scipy
evaluate it on doubles: the step sizes and the error series pass through
the numpy logarithm, each log-error is halved, and the least-squares
slope formula is applied to the outcome. -/
noncomputable def fitSlopeNF (hs ms : List ℝ) : NF :=
  linregressNF (hs.map nplog) ((ms.map nplog).map (fun y => y.div (.fin 2)))

/-- A concrete solver environment: every scheme and the analytical
sampler return the constant trajectory at the initial value, one state
batch per requested time point. -/
def constEnv : SolverEnv where
  sdeint := fun y0 ts _ _ _ _ => ts.map (fun _ => y0)
  analytical_sample := fun y0 ts _ => ts.map (fun _ => y0)

/-- Convenience names for the fixed inputs of inspect_strong_order. -/
def y0Strong : Tensor := ones 4096 10

/-- The two-point time grid of the Convergence-Order Experiment. -/
noncomputable def tsStrong : List ℝ := [0, 5]

/-- The single noise realization of the Convergence-Order Experiment. -/
noncomputable def bmStrong : BrownianPath := ⟨0, zeros_like y0Strong⟩

/-- Output of inspect_strong_order in the constant environment: every
error is zero and, with the real-valued reading of the logarithm, every
fitted slope is zero. -/
noncomputable def constOut : StrongOut :=
  ⟨List.replicate 8 0, List.replicate 8 0, List.replicate 8 0, 0, 0, 0⟩

/-- Trace body of the step loop in the constant environment. -/
noncomputable def constBody : List Event :=
  dts.flatMap (fun dt =>
    [Event.solverCall "euler" tsStrong dt bmStrong [],
     Event.solverCall "milstein" tsStrong dt bmStrong [],
     Event.solverCall "srk" tsStrong dt bmStrong [("trapezoidal_approx", false)],
     Event.analyticalCall tsStrong bmStrong])

/-- Full trace of inspect_strong_order in the constant environment. -/
noncomputable def constTrace : List Event :=
  Event.bmNew bmStrong :: constBody ++ [Event.saveFig "rate"]

/-- The dense time grid of the Path Comparison Experiment. -/
noncomputable def tsSample : List ℝ := linspace 0 5 100

/-- The initial batch of the Path Comparison Experiment. -/
noncomputable def y0Sample : Tensor := ones 32 1

/-- The single noise realization of the Path Comparison Experiment. -/
noncomputable def bmSample : BrownianPath := ⟨tsSample.headD 0, zeros_like y0Sample⟩

/-- The five effect events preceding any figure write in
inspect_sample. -/
noncomputable def sampleCalls : List Event :=
  [.bmNew bmSample,
   .solverCall "euler" tsSample (1e-1) bmSample [],
   .solverCall "milstein" tsSample (1e-1) bmSample [],
   .solverCall "srk" tsSample (1e-1) bmSample [("trapezoidal_approx", false)],
   .analyticalCall tsSample bmSample]

/-- The specification-side reading of C2: s is the slope of the
ordinary-least-squares straight-line fit to the paired points of xs and
ys: together with the computed intercept it minimizes the residual sum
of squares, and no line with a different slope attains the minimum. -/
noncomputable def IsOlsSlope (xs ys : List ℝ) (s : ℝ) : Prop :=
  s = linregress_slope xs ys ∧
  (∀ a b, residSum xs ys (linregress_intercept xs ys) s ≤ residSum xs ys a b) ∧
  (∀ a b, residSum xs ys a b ≤ residSum xs ys (linregress_intercept xs ys) s → b = s)

/-- The discipline of C10: a stochastic Runge-Kutta call carries exactly
the option trapezoidal_approx set to false, while Euler and Milstein
calls carry no options. -/
def OptionDiscipline (e : Event) : Prop :=
  (e.methodOf = some "srk" → e.optionsOf = some [("trapezoidal_approx", false)]) ∧
  ((e.methodOf = some "euler" ∨ e.methodOf = some "milstein") → e.optionsOf = some [])

/-! ### Properties of the error metric -/

lemma sqDiffs_nonneg (x y : Tensor) : ∀ v ∈ sqDiffs x y, 0 ≤ v := by
  intro v hv
  simp only [sqDiffs, List.mem_flatMap, List.mem_map] at hv
  obtain ⟨rr, _, p, _, rfl⟩ := hv
  positivity

lemma compute_mse_nonneg (x y : Tensor) : 0 ≤ compute_mse x y := by
  have h1 : 0 ≤ (sqDiffs x y).sum := List.sum_nonneg (sqDiffs_nonneg x y)
  have h2 : (0:ℝ) ≤ ((sqDiffs x y).length : ℝ) := by positivity
  exact div_nonneg h1 h2

lemma sqDiffs_self (x : Tensor) : sqDiffs x x = List.replicate (numEntries x) 0 := by
  induction x with
  | nil => simp [sqDiffs, numEntries]
  | cons r t ih =>
    simp only [sqDiffs, numEntries, List.zip_cons_cons, List.flatMap_cons, List.map_cons,
      List.sum_cons, List.replicate_add] at *
    rw [ih]
    congr 1
    · induction r with
      | nil => simp
      | cons a s ihr =>
        simp only [List.zip_cons_cons, List.map_cons, List.length_cons, List.replicate_succ]
        rw [ihr]
        norm_num

lemma compute_mse_self (x : Tensor) : compute_mse x x = 0 := by
  rw [compute_mse, sqDiffs_self]
  simp

lemma sqDiffs_comm (x y : Tensor) : sqDiffs x y = sqDiffs y x := by
  induction x generalizing y with
  | nil => cases y <;> simp [sqDiffs]
  | cons r t ih =>
    cases y with
    | nil => simp [sqDiffs]
    | cons s u =>
      simp only [sqDiffs, List.zip_cons_cons, List.flatMap_cons] at *
      rw [ih u]
      congr 1
      induction r generalizing s with
      | nil => cases s <;> simp
      | cons a as ihr =>
        cases s with
        | nil => simp
        | cons b bs =>
          simp only [List.zip_cons_cons, List.map_cons]
          rw [ihr bs]
          congr 1
          ring

lemma compute_mse_comm (x y : Tensor) : compute_mse x y = compute_mse y x := by
  rw [compute_mse, compute_mse, sqDiffs_comm]

lemma sqDiffs_length (x y : Tensor) (h : SameShape x y) :
    (sqDiffs x y).length = numEntries x := by
  obtain ⟨h1, h2⟩ := h
  induction x generalizing y with
  | nil => simp [sqDiffs, numEntries]
  | cons r t ih =>
    cases y with
    | nil => simp at h1
    | cons s u =>
      simp only [sqDiffs, List.zip_cons_cons, List.flatMap_cons, List.length_append,
        List.length_map, List.length_zip, numEntries, List.map_cons, List.sum_cons]
      have hr : r.length = s.length := h2 (r, s) (by simp)
      rw [hr, min_self]
      have := ih u (by simpa using h1) (fun p hp => h2 p (by simp [hp]))
      simp only [sqDiffs, numEntries] at this
      omega

/-! ### The least-squares fit: the closed-form slope and intercept
minimize the residual sum of squares, uniquely in the slope. -/

lemma residSum_decomp (xs ys : List ℝ) (h : xs.length = ys.length) (a b a' b' : ℝ) :
    residSum xs ys a b
      = residSum xs ys a' b' + 2 * (a' - a) * resLin xs ys a' b'
        + 2 * (b' - b) * resLinX xs ys a' b' + (quadTerm xs (a' - a) (b' - b)).sum := by
  induction xs generalizing ys with
  | nil => simp [residSum, resLin, resLinX, quadTerm]
  | cons x t ih =>
    cases ys with
    | nil => simp at h
    | cons y u =>
      simp only [residSum, resLin, resLinX, quadTerm, List.zip_cons_cons, List.map_cons,
        List.sum_cons]
      have iht := ih u (by simpa using h)
      simp only [residSum, resLin, resLinX, quadTerm] at iht
      rw [iht]
      ring

lemma resLin_eval (xs ys : List ℝ) (h : xs.length = ys.length) (a b : ℝ) :
    resLin xs ys a b = ys.sum - (xs.length : ℝ) * a - b * sumX xs := by
  induction xs generalizing ys with
  | nil =>
    cases ys with
    | nil => simp [resLin, sumX]
    | cons y u => simp at h
  | cons x t ih =>
    cases ys with
    | nil => simp at h
    | cons y u =>
      simp only [resLin, sumX, List.zip_cons_cons, List.map_cons, List.sum_cons,
        List.length_cons]
      have iht := ih u (by simpa using h)
      simp only [resLin, sumX] at iht
      rw [iht]
      push_cast
      ring

lemma resLinX_eval (xs ys : List ℝ) (h : xs.length = ys.length) (a b : ℝ) :
    resLinX xs ys a b = sumXY xs ys - a * sumX xs - b * sumXX xs := by
  induction xs generalizing ys with
  | nil =>
    cases ys with
    | nil => simp [resLinX, sumXY, sumX, sumXX]
    | cons y u => simp at h
  | cons x t ih =>
    cases ys with
    | nil => simp at h
    | cons y u =>
      simp only [resLinX, sumXY, sumX, sumXX, List.zip_cons_cons, List.map_cons,
        List.sum_cons]
      have iht := ih u (by simpa using h)
      simp only [resLinX, sumXY, sumX, sumXX] at iht
      rw [iht]
      ring

lemma normal_eq_resLin (xs ys : List ℝ) (h : xs.length = ys.length)
    (hn : (xs.length : ℝ) ≠ 0) :
    resLin xs ys (linregress_intercept xs ys) (linregress_slope xs ys) = 0 := by
  rw [resLin_eval xs ys h, linregress_intercept]
  field_simp

lemma normal_eq_resLinX (xs ys : List ℝ) (h : xs.length = ys.length)
    (hn : (xs.length : ℝ) ≠ 0)
    (hD : (xs.length : ℝ) * sumXX xs - sumX xs ^ 2 ≠ 0) :
    resLinX xs ys (linregress_intercept xs ys) (linregress_slope xs ys) = 0 := by
  rw [resLinX_eval xs ys h, linregress_intercept, linregress_slope]
  field_simp
  ring

lemma length_pos_of_D (xs : List ℝ) (hD : 0 < (xs.length : ℝ) * sumXX xs - sumX xs ^ 2) :
    (xs.length : ℝ) ≠ 0 := by
  cases xs with
  | nil => exfalso; simp [sumX, sumXX] at hD
  | cons a t =>
    simp only [List.length_cons]
    exact_mod_cast Nat.succ_ne_zero t.length

theorem ols_min (xs ys : List ℝ) (h : xs.length = ys.length)
    (hD : 0 < (xs.length : ℝ) * sumXX xs - sumX xs ^ 2) (a b : ℝ) :
    residSum xs ys (linregress_intercept xs ys) (linregress_slope xs ys)
      ≤ residSum xs ys a b := by
  have hn := length_pos_of_D xs hD
  have hd := residSum_decomp xs ys h a b (linregress_intercept xs ys) (linregress_slope xs ys)
  rw [normal_eq_resLin xs ys h hn, normal_eq_resLinX xs ys h hn (ne_of_gt hD)] at hd
  have hq : 0 ≤ (quadTerm xs (linregress_intercept xs ys - a) (linregress_slope xs ys - b)).sum := by
    apply List.sum_nonneg
    intro v hv
    simp only [quadTerm, List.mem_map] at hv
    obtain ⟨x, _, rfl⟩ := hv
    positivity
  linarith

lemma list_sum_zero_of_nonneg (l : List ℝ) (hnn : ∀ v ∈ l, 0 ≤ v) (hs : l.sum = 0) :
    ∀ v ∈ l, v = 0 := by
  induction l with
  | nil => simp
  | cons a t ih =>
    have ha : 0 ≤ a := hnn a (by simp)
    have ht : 0 ≤ t.sum := List.sum_nonneg (fun v hv => hnn v (by simp [hv]))
    simp only [List.sum_cons] at hs
    have ha0 : a = 0 := by linarith
    have hts : t.sum = 0 := by linarith
    intro v hv
    rcases List.mem_cons.mp hv with rfl | hv
    · exact ha0
    · exact ih (fun w hw => hnn w (by simp [hw])) hts v hv

theorem ols_unique (xs ys : List ℝ) (h : xs.length = ys.length)
    (hD : 0 < (xs.length : ℝ) * sumXX xs - sumX xs ^ 2)
    (x1 x2 : ℝ) (hx1 : x1 ∈ xs) (hx2 : x2 ∈ xs) (hxne : x1 ≠ x2) (a b : ℝ)
    (hle : residSum xs ys a b
      ≤ residSum xs ys (linregress_intercept xs ys) (linregress_slope xs ys)) :
    b = linregress_slope xs ys := by
  have hn := length_pos_of_D xs hD
  have hd := residSum_decomp xs ys h a b (linregress_intercept xs ys) (linregress_slope xs ys)
  rw [normal_eq_resLin xs ys h hn, normal_eq_resLinX xs ys h hn (ne_of_gt hD)] at hd
  set u := linregress_intercept xs ys - a with hu
  set v := linregress_slope xs ys - b with hv
  have hqnn : ∀ w ∈ quadTerm xs u v, 0 ≤ w := by
    intro w hw
    simp only [quadTerm, List.mem_map] at hw
    obtain ⟨x, _, rfl⟩ := hw
    positivity
  have hq0 : (quadTerm xs u v).sum = 0 := by
    have h1 : 0 ≤ (quadTerm xs u v).sum := List.sum_nonneg hqnn
    nlinarith [hd, hle]
  have hall := list_sum_zero_of_nonneg (quadTerm xs u v) hqnn hq0
  have h1 : (u + v * x1) ^ 2 = 0 := hall _ (List.mem_map_of_mem _ hx1)
  have h2 : (u + v * x2) ^ 2 = 0 := hall _ (List.mem_map_of_mem _ hx2)
  have h1' : u + v * x1 = 0 := by nlinarith [h1]
  have h2' : u + v * x2 = 0 := by nlinarith [h2]
  have hv0 : v = 0 := by
    by_contra hvne
    have hx : v * x1 = v * x2 := by linarith
    exact hxne (mul_left_cancel₀ hvne hx)
  have : linregress_slope xs ys - b = 0 := by rw [← hv]; exact hv0
  linarith

/-! ### Concrete facts about the step-size series and its logarithms -/

lemma logdts_eq : dts.map Real.log =
    [-(1:ℝ) * Real.log 2, -(2:ℝ) * Real.log 2, -(3:ℝ) * Real.log 2, -(4:ℝ) * Real.log 2,
     -(5:ℝ) * Real.log 2, -(6:ℝ) * Real.log 2, -(7:ℝ) * Real.log 2, -(8:ℝ) * Real.log 2] := by
  simp [dts, List.range', Real.log_zpow]

lemma hD_logdts : 0 < ((dts.map Real.log).length : ℝ) * sumXX (dts.map Real.log)
    - sumX (dts.map Real.log) ^ 2 := by
  rw [logdts_eq]
  simp only [sumXX, sumX, List.map_cons, List.map_nil, List.sum_cons, List.sum_nil,
    List.length_cons, List.length_nil]
  have hL : 0 < Real.log 2 := Real.log_pos (by norm_num)
  push_cast
  nlinarith [sq_nonneg (Real.log 2)]

lemma logdts_mem1 : -(1:ℝ) * Real.log 2 ∈ dts.map Real.log := by
  rw [logdts_eq]; simp

lemma logdts_mem2 : -(2:ℝ) * Real.log 2 ∈ dts.map Real.log := by
  rw [logdts_eq]; simp

lemma logdts_ne : -(1:ℝ) * Real.log 2 ≠ -(2:ℝ) * Real.log 2 := by
  have hL : 0 < Real.log 2 := Real.log_pos (by norm_num)
  intro h
  nlinarith

/-! ### Structure of the step loop and its trace -/

lemma unpack2_eq_some {α : Type} (l : List α) (a b : α) :
    unpack2 l = some (a, b) ↔ l = [a, b] := by
  match l with
  | [] => simp [unpack2]
  | [x] => simp [unpack2]
  | [x, y] => simp [unpack2]
  | x :: y :: z :: t => simp [unpack2]

lemma step_events_sub (env : SolverEnv) (y0 : Tensor) (ts : List ℝ) (bm : BrownianPath)
    (dt : ℝ) :
    ∀ e ∈ (strong_order_step env y0 ts bm dt).2,
      e ∈ [Event.solverCall "euler" ts dt bm [],
           Event.solverCall "milstein" ts dt bm [],
           Event.solverCall "srk" ts dt bm [("trapezoidal_approx", false)],
           Event.analyticalCall ts bm] := by
  intro e he
  unfold strong_order_step at he
  repeat' split at he
  all_goals simp_all
  all_goals tauto

lemma step_success (env : SolverEnv) (y0 : Tensor) (ts : List ℝ) (bm : BrownianPath)
    (dt : ℝ) (me mm ms : ℝ) (ev : List Event)
    (h : strong_order_step env y0 ts bm dt = (some (me, mm, ms), ev)) :
    (∃ a0 a1 b0 b1 c0 c1 d0 d1,
      env.sdeint y0 ts dt bm "euler" [] = [a0, a1] ∧
      env.sdeint y0 ts dt bm "milstein" [] = [b0, b1] ∧
      env.sdeint y0 ts dt bm "srk" [("trapezoidal_approx", false)] = [c0, c1] ∧
      env.analytical_sample y0 ts bm = [d0, d1] ∧
      me = compute_mse a1 d1 ∧ mm = compute_mse b1 d1 ∧ ms = compute_mse c1 d1) ∧
    ev = [Event.solverCall "euler" ts dt bm [],
          Event.solverCall "milstein" ts dt bm [],
          Event.solverCall "srk" ts dt bm [("trapezoidal_approx", false)],
          Event.analyticalCall ts bm] := by
  unfold strong_order_step at h
  repeat' split at h
  all_goals simp_all [unpack2_eq_some]
  all_goals tauto

lemma runSteps_events_pred {α : Type} (f : ℝ → Option α × List Event) (P : Event → Prop)
    (hf : ∀ dt, ∀ e ∈ (f dt).2, P e) :
    ∀ l : List ℝ, ∀ e ∈ (runSteps f l).2, P e := by
  intro l
  induction l with
  | nil => intro e he; simp [runSteps] at he
  | cons dt rest ih =>
    intro e he
    unfold runSteps at he
    split at he
    next a ev heq =>
      split at he
      next as ev2 heq2 =>
        simp only at he
        rcases List.mem_append.mp he with hh | hh
        · exact hf dt e (by rw [heq]; exact hh)
        · exact ih e (by rw [heq2]; exact hh)
      next ev2 heq2 =>
        simp only at he
        rcases List.mem_append.mp he with hh | hh
        · exact hf dt e (by rw [heq]; exact hh)
        · exact ih e (by rw [heq2]; exact hh)
    next ev heq =>
      exact hf dt e (by rw [heq]; exact he)

lemma runSteps_ok {α : Type} (f : ℝ → Option α × List Event) :
    ∀ (l : List ℝ) (as : List α) (ev : List Event), runSteps f l = (some as, ev) →
      as.length = l.length ∧ ev = l.flatMap (fun dt => (f dt).2) ∧
      ∀ i, i < l.length → ∃ dt a, l[i]? = some dt ∧ as[i]? = some a ∧ (f dt).1 = some a := by
  intro l
  induction l with
  | nil =>
    intro as ev h
    simp only [runSteps, Prod.mk.injEq, Option.some.injEq] at h
    obtain ⟨rfl, rfl⟩ := h
    simp
  | cons dt rest ih =>
    intro as ev h
    unfold runSteps at h
    split at h
    next a ev1 heq =>
      split at h
      next as2 ev2 heq2 =>
        simp only [Prod.mk.injEq, Option.some.injEq] at h
        obtain ⟨rfl, rfl⟩ := h
        obtain ⟨hlen, hev, hidx⟩ := ih as2 ev2 heq2
        refine ⟨by simp [hlen], ?_, ?_⟩
        · simp only [List.flatMap_cons]
          rw [heq] at *
          simp [hev]
        · intro i hi
          cases i with
          | zero => exact ⟨dt, a, by simp, by simp, by rw [heq]⟩
          | succ j =>
            obtain ⟨dt2, a2, h1, h2, h3⟩ := hidx j (by simpa using hi)
            exact ⟨dt2, a2, by simpa using h1, by simpa using h2, h3⟩
      next ev2 heq2 => simp at h
    next ev1 heq => simp at h

lemma strong_order_run_spec (env : SolverEnv) (out : StrongOut) (ev : List Event)
    (h : inspect_strong_order mainGlobals env = (.ok out, ev)) :
    ∃ triples body,
      runSteps (strong_order_step env y0Strong tsStrong bmStrong) dts = (some triples, body) ∧
      out.euler_mses = triples.map (fun t => t.1) ∧
      out.milstein_mses = triples.map (fun t => t.2.1) ∧
      out.srk_mses = triples.map (fun t => t.2.2) ∧
      out.euler_slope
        = linregress_slope (dts.map Real.log) (out.euler_mses.map (fun m => Real.log m / 2)) ∧
      out.milstein_slope
        = linregress_slope (dts.map Real.log) (out.milstein_mses.map (fun m => Real.log m / 2)) ∧
      out.srk_slope
        = linregress_slope (dts.map Real.log) (out.srk_mses.map (fun m => Real.log m / 2)) ∧
      ev = Event.bmNew bmStrong :: body ++ [Event.saveFig "rate"] := by
  unfold inspect_strong_order at h
  simp only [mainGlobals] at h
  split at h
  next as2 ev2 heq2 =>
    simp at h
  next as2 ev2 heq2 =>
    simp only [Prod.mk.injEq, Except.ok.injEq] at h
    obtain ⟨rfl, rfl⟩ := h
    exact ⟨as2, ev2, heq2, rfl, rfl, rfl, rfl, rfl, rfl, rfl⟩

/-! ### Evaluation of the experiments in the constant solver
environment -/

lemma dts_length : dts.length = 8 := by
  rw [dts, List.length_map, List.length_range']

lemma const_step_eval (y0 : Tensor) (bm : BrownianPath) (dt : ℝ) :
    strong_order_step constEnv y0 tsStrong bm dt =
      (some (0, 0, 0),
       [Event.solverCall "euler" tsStrong dt bm [],
        Event.solverCall "milstein" tsStrong dt bm [],
        Event.solverCall "srk" tsStrong dt bm [("trapezoidal_approx", false)],
        Event.analyticalCall tsStrong bm]) := by
  unfold strong_order_step constEnv tsStrong
  simp [unpack2, compute_mse_self]

lemma const_runSteps (l : List ℝ) :
    runSteps (strong_order_step constEnv y0Strong tsStrong bmStrong) l
      = (some (List.replicate l.length ((0:ℝ), (0:ℝ), (0:ℝ))),
         l.flatMap (fun dt =>
           [Event.solverCall "euler" tsStrong dt bmStrong [],
            Event.solverCall "milstein" tsStrong dt bmStrong [],
            Event.solverCall "srk" tsStrong dt bmStrong [("trapezoidal_approx", false)],
            Event.analyticalCall tsStrong bmStrong])) := by
  induction l with
  | nil => simp [runSteps]
  | cons dt rest ih =>
    unfold runSteps
    rw [const_step_eval, ih]
    simp [List.replicate_succ]

lemma sumXY_replicate_zero (xs : List ℝ) (n : Nat) :
    sumXY xs (List.replicate n 0) = 0 := by
  induction xs generalizing n with
  | nil => simp [sumXY]
  | cons x t ih =>
    cases n with
    | zero => simp [sumXY]
    | succ m =>
      simp only [List.replicate_succ, sumXY, List.zip_cons_cons, List.map_cons, List.sum_cons]
      have := ih m
      simp only [sumXY] at this
      rw [this]
      ring

lemma slope_replicate_zero (xs : List ℝ) (n : Nat) :
    linregress_slope xs (List.replicate n 0) = 0 := by
  unfold linregress_slope
  rw [sumXY_replicate_zero]
  simp

lemma const_run :
    inspect_strong_order mainGlobals constEnv = (.ok constOut, constTrace) := by
  have hrs := const_runSteps dts
  rw [dts_length] at hrs
  simp only [y0Strong, tsStrong, bmStrong] at hrs
  unfold inspect_strong_order
  simp only [mainGlobals]
  rw [hrs]
  unfold constOut constTrace constBody
  simp only [y0Strong, tsStrong, bmStrong, List.map_replicate, Real.log_zero, zero_div,
    slope_replicate_zero]

/-! ### The degenerate-error behavior of the convergence fit in IEEE
arithmetic -/

lemma dts_pos : ∀ x ∈ dts, 0 < x := by
  norm_num [dts, List.range']

lemma dts_lt_one : ∀ x ∈ dts, x < 1 := by
  norm_num [dts, List.range']

lemma dts_ne_nil : dts ≠ [] := by
  intro h
  have := dts_length
  rw [h] at this
  simp at this

lemma NF.div_nan_left (q : NF) : NF.nan.div q = NF.nan := by
  cases q <;> simp [NF.div]

lemma NF.div_ninf_fin2 : NF.ninf.div (NF.fin 2) = NF.ninf := by
  simp [NF.div]

lemma NF.div_fin_fin2 (r : ℝ) : (NF.fin r).div (NF.fin 2) = NF.fin (r / 2) := by
  simp [NF.div]

lemma NF.mul_fin_ninf_of_neg (a : ℝ) (h : a < 0) : (NF.fin a).mul NF.ninf = NF.pinf := by
  simp [NF.mul, h, asymm h]

lemma NF.mul_fin_pinf_of_pos (a : ℝ) (h : 0 < a) : (NF.fin a).mul NF.pinf = NF.pinf := by
  simp [NF.mul, h]

lemma NF.sub_pinf_pinf : NF.pinf.sub NF.pinf = NF.nan := rfl

lemma listSum_all_fin (l : List NF) (h : ∀ e ∈ l, ∃ r, e = NF.fin r) :
    ∃ s, NF.listSum l = NF.fin s := by
  induction l with
  | nil => exact ⟨0, rfl⟩
  | cons a t ih =>
    obtain ⟨r, rfl⟩ := h a (by simp)
    obtain ⟨s, hs⟩ := ih (fun e he => h e (by simp [he]))
    exact ⟨r + s, by simp [NF.listSum, List.foldr_cons] at hs ⊢; rw [hs]; rfl⟩

lemma listSum_fin_neg (l : List NF) (h : ∀ e ∈ l, ∃ r, e = NF.fin r ∧ r < 0)
    (hne : l ≠ []) : ∃ s, NF.listSum l = NF.fin s ∧ s < 0 := by
  induction l with
  | nil => exact absurd rfl hne
  | cons a t ih =>
    obtain ⟨r, rfl, hr⟩ := h a (by simp)
    cases t with
    | nil => exact ⟨r + 0, rfl, by linarith⟩
    | cons b u =>
      obtain ⟨s, hs, hsneg⟩ := ih (fun e he => h e (by simp [he])) (by simp)
      refine ⟨r + s, ?_, by linarith⟩
      simp only [NF.listSum, List.foldr_cons] at hs ⊢
      rw [hs]
      rfl

lemma listSum_closed_ninf (l : List NF)
    (h : ∀ e ∈ l, (∃ r, e = NF.fin r) ∨ e = NF.ninf) :
    (∃ s, NF.listSum l = NF.fin s) ∨ NF.listSum l = NF.ninf := by
  induction l with
  | nil => exact Or.inl ⟨0, rfl⟩
  | cons a t ih =>
    have ht := ih (fun e he => h e (by simp [he]))
    simp only [NF.listSum, List.foldr_cons] at ht ⊢
    rcases h a (by simp) with ⟨r, rfl⟩ | rfl <;>
      rcases ht with ⟨s, hs⟩ | hs <;> rw [hs]
    · exact Or.inl ⟨r + s, rfl⟩
    · exact Or.inr rfl
    · exact Or.inr rfl
    · exact Or.inr rfl

lemma listSum_closed_pinf (l : List NF)
    (h : ∀ e ∈ l, (∃ r, e = NF.fin r) ∨ e = NF.pinf) :
    (∃ s, NF.listSum l = NF.fin s) ∨ NF.listSum l = NF.pinf := by
  induction l with
  | nil => exact Or.inl ⟨0, rfl⟩
  | cons a t ih =>
    have ht := ih (fun e he => h e (by simp [he]))
    simp only [NF.listSum, List.foldr_cons] at ht ⊢
    rcases h a (by simp) with ⟨r, rfl⟩ | rfl <;>
      rcases ht with ⟨s, hs⟩ | hs <;> rw [hs]
    · exact Or.inl ⟨r + s, rfl⟩
    · exact Or.inr rfl
    · exact Or.inr rfl
    · exact Or.inr rfl

lemma listSum_with_ninf (l : List NF)
    (h : ∀ e ∈ l, (∃ r, e = NF.fin r) ∨ e = NF.ninf) (hm : NF.ninf ∈ l) :
    NF.listSum l = NF.ninf := by
  induction l with
  | nil => simp at hm
  | cons a t ih =>
    have ht : ∀ e ∈ t, (∃ r, e = NF.fin r) ∨ e = NF.ninf := fun e he => h e (by simp [he])
    simp only [NF.listSum, List.foldr_cons]
    rcases List.mem_cons.mp hm with rfl | hm2
    · rcases listSum_closed_ninf t ht with ⟨s, hs⟩ | hs <;>
        · simp only [NF.listSum] at hs; rw [hs]; rfl
    · have hts := ih ht hm2
      simp only [NF.listSum] at hts
      rw [hts]
      rcases h a (by simp) with ⟨r, rfl⟩ | rfl <;> rfl

lemma listSum_with_pinf (l : List NF)
    (h : ∀ e ∈ l, (∃ r, e = NF.fin r) ∨ e = NF.pinf) (hm : NF.pinf ∈ l) :
    NF.listSum l = NF.pinf := by
  induction l with
  | nil => simp at hm
  | cons a t ih =>
    have ht : ∀ e ∈ t, (∃ r, e = NF.fin r) ∨ e = NF.pinf := fun e he => h e (by simp [he])
    simp only [NF.listSum, List.foldr_cons]
    rcases List.mem_cons.mp hm with rfl | hm2
    · rcases listSum_closed_pinf t ht with ⟨s, hs⟩ | hs <;>
        · simp only [NF.listSum] at hs; rw [hs]; rfl
    · have hts := ih ht hm2
      simp only [NF.listSum] at hts
      rw [hts]
      rcases h a (by simp) with ⟨r, rfl⟩ | rfl <;> rfl

lemma prods_closed (xs ys : List NF)
    (hx : ∀ e ∈ xs, ∃ r, e = NF.fin r ∧ r < 0)
    (hy : ∀ e ∈ ys, (∃ r, e = NF.fin r) ∨ e = NF.ninf) :
    ∀ e ∈ (xs.zip ys).map (fun p => p.1.mul p.2),
      (∃ r, e = NF.fin r) ∨ e = NF.pinf := by
  intro e he
  simp only [List.mem_map] at he
  obtain ⟨p, hp, rfl⟩ := he
  obtain ⟨hp1, hp2⟩ := List.of_mem_zip hp
  obtain ⟨r, hr, hrneg⟩ := hx p.1 hp1
  rcases hy p.2 hp2 with ⟨w, hw⟩ | hw
  · exact Or.inl ⟨r * w, by rw [hr, hw]; rfl⟩
  · exact Or.inr (by rw [hr, hw, NF.mul_fin_ninf_of_neg r hrneg])

lemma prods_has_pinf (xs ys : List NF) (hlen : xs.length = ys.length)
    (hx : ∀ e ∈ xs, ∃ r, e = NF.fin r ∧ r < 0) (hm : NF.ninf ∈ ys) :
    NF.pinf ∈ (xs.zip ys).map (fun p => p.1.mul p.2) := by
  induction xs generalizing ys with
  | nil =>
    cases ys with
    | nil => simp at hm
    | cons y u => simp at hlen
  | cons x t ih =>
    cases ys with
    | nil => simp at hm
    | cons y u =>
      simp only [List.zip_cons_cons, List.map_cons, List.mem_cons]
      rcases List.mem_cons.mp hm with rfl | hm2
      · obtain ⟨r, hr, hrneg⟩ := hx x (by simp)
        exact Or.inl (by rw [hr, NF.mul_fin_ninf_of_neg r hrneg])
      · exact Or.inr (ih u (by simpa using hlen)
          (fun e he => hx e (by simp [he])) hm2)

/-- Feeding the convergence fit an error series of the right length that
contains a zero (all entries nonnegative, as mean-squared errors are)
makes the IEEE evaluation of the fitted slope not-a-number: the zero
passes through the logarithm as negative infinity and the least-squares
formula contracts opposite infinities. -/
theorem fitSlopeNF_nan_of_zero (ms : List ℝ) (hlen : ms.length = 8)
    (h0 : (0:ℝ) ∈ ms) (hnn : ∀ m ∈ ms, 0 ≤ m) :
    fitSlopeNF dts ms = NF.nan := by
  have hx : ∀ e ∈ dts.map nplog, ∃ r, e = NF.fin r ∧ r < 0 := by
    intro e he
    simp only [List.mem_map] at he
    obtain ⟨h, hh, rfl⟩ := he
    have hpos := dts_pos h hh
    have hlt := dts_lt_one h hh
    refine ⟨Real.log h, by unfold nplog; rw [if_pos hpos], Real.log_neg hpos hlt⟩
  have hy : ∀ e ∈ (ms.map nplog).map (fun y => y.div (NF.fin 2)),
      (∃ r, e = NF.fin r) ∨ e = NF.ninf := by
    intro e he
    simp only [List.mem_map] at he
    obtain ⟨a, ⟨m, hm, ha⟩, rfl⟩ := he
    subst ha
    rcases lt_or_eq_of_le (hnn m hm) with hpos | hzero
    · refine Or.inl ⟨Real.log m / 2, ?_⟩
      unfold nplog
      rw [if_pos hpos, NF.div_fin_fin2]
    · refine Or.inr ?_
      unfold nplog
      rw [if_neg (by rw [← hzero]; exact lt_irrefl 0), if_pos hzero.symm, NF.div_ninf_fin2]
  have hym : NF.ninf ∈ (ms.map nplog).map (fun y => y.div (NF.fin 2)) := by
    have h1 : NF.ninf ∈ ms.map nplog := by
      refine List.mem_map.mpr ⟨0, h0, ?_⟩
      unfold nplog
      rw [if_neg (lt_irrefl 0), if_pos rfl]
    refine List.mem_map.mpr ⟨NF.ninf, h1, NF.div_ninf_fin2⟩
  have hlen2 : (dts.map nplog).length = ((ms.map nplog).map (fun y => y.div (NF.fin 2))).length := by
    simp [dts_length, hlen]
  obtain ⟨s, hsx, hsneg⟩ := listSum_fin_neg _ hx (by simp [dts_ne_nil])
  have hsy := listSum_with_ninf _ hy hym
  have hsxy := listSum_with_pinf _ (prods_closed _ _ hx hy) (prods_has_pinf _ _ hlen2 hx hym)
  simp only [fitSlopeNF, linregressNF]
  rw [hsx, hsy, hsxy]
  rw [NF.mul_fin_ninf_of_neg s hsneg]
  rw [NF.mul_fin_pinf_of_pos _ (by simp [dts_length])]
  rw [NF.sub_pinf_pinf, NF.div_nan_left]

/-! ### Structure of the Path Comparison Experiment run -/

lemma sample_trace_events (g : Globals) (env : SolverEnv) :
    ∀ e ∈ (inspect_sample g env).2, e ∈ sampleCalls ∨ e.isSaveFig = true := by
  intro e he
  unfold inspect_sample at he
  cases hg : g.device with
  | none => rw [hg] at he; simp at he
  | some dev =>
    rw [hg] at he
    simp only at he
    split at he
    · simp only at he
      rcases List.mem_append.mp he with hh | hh
      · exact Or.inl (by simpa [sampleCalls, tsSample, y0Sample, bmSample] using hh)
      · refine Or.inr ?_
        simp only [List.mem_map] at hh
        obtain ⟨i, _, rfl⟩ := hh
        rfl
    · exact Or.inl (by simpa [sampleCalls, tsSample, y0Sample, bmSample] using he)

lemma sample_run_ok (env : SolverEnv)
    (h1 : trajShape (env.sdeint y0Sample tsSample (1e-1) bmSample "euler" []) = [100, 32, 1])
    (h2 : trajShape (env.sdeint y0Sample tsSample (1e-1) bmSample "milstein" []) = [100, 32, 1])
    (h3 : trajShape (env.sdeint y0Sample tsSample (1e-1) bmSample "srk"
            [("trapezoidal_approx", false)]) = [100, 32, 1])
    (h4 : trajShape (env.analytical_sample y0Sample tsSample bmSample) = [100, 32, 1]) :
    inspect_sample mainGlobals env
      = (.ok (), sampleCalls ++ (List.range 32).map (fun i => Event.saveFig (toString i))) := by
  simp only [y0Sample, tsSample, bmSample] at h1 h2 h3 h4
  unfold inspect_sample
  simp only [mainGlobals]
  rw [h1, h2, h3, h4]
  simp only [sampleCalls, tsSample, y0Sample, bmSample]
  norm_num [figCount, squeezeShape, tShape]

lemma tsSample_length : tsSample.length = 100 := by
  rw [tsSample, linspace, List.length_map, List.length_range]

lemma tsSample_ne_nil : tsSample ≠ [] := by
  intro h
  have h2 := tsSample_length
  rw [h] at h2
  simp at h2

lemma trajShape_const_map (c : Tensor) (l : List ℝ) (hl : l ≠ []) :
    trajShape (l.map (fun _ => c)) = [l.length, c.length, (c.headD []).length] := by
  cases l with
  | nil => exact absurd rfl hl
  | cons a t => simp [trajShape, tensorShape]

lemma trajShape_const_sample :
    trajShape (tsSample.map (fun _ => y0Sample)) = [100, 32, 1] := by
  rw [trajShape_const_map _ _ tsSample_ne_nil, tsSample_length]
  simp [y0Sample, ones]

lemma const_sample_run :
    inspect_sample mainGlobals constEnv
      = (.ok (), sampleCalls ++ (List.range 32).map (fun i => Event.saveFig (toString i))) := by
  apply sample_run_ok <;> exact trajShape_const_sample

/-! ### Claim theorems -/

/-- C8: the step-size series used by the Convergence-Order Experiment is
the eight-element geometric sequence 2 to the powers -1 through -8, an
ordered sequence of positive reals that is strictly decreasing. -/
theorem C8_step_size_series :
    dts = [(2:ℝ)^(-1:ℤ), (2:ℝ)^(-2:ℤ), (2:ℝ)^(-3:ℤ), (2:ℝ)^(-4:ℤ),
           (2:ℝ)^(-5:ℤ), (2:ℝ)^(-6:ℤ), (2:ℝ)^(-7:ℤ), (2:ℝ)^(-8:ℤ)] ∧
    dts.length = 8 ∧ (∀ x ∈ dts, 0 < x) ∧ dts.Chain' (fun a b => b < a) := by
  refine ⟨by norm_num [dts, List.range'], dts_length, dts_pos, ?_⟩
  norm_num [dts, List.range', List.chain'_cons]

/-- C9: with the module merely imported (the dunder-main block not run,
so the global name device unbound), any call of inspect_sample or of
inspect_strong_order fails with a NameError before any effect is
produced. -/
theorem C9_device_unbound (env : SolverEnv) :
    inspect_sample importGlobals env = (.error .nameError, []) ∧
    inspect_strong_order importGlobals env = (.error .nameError, []) :=
  ⟨rfl, rfl⟩

/-- C6: for state batches of identical shape, the mean-squared-error
metric is the arithmetic mean over every batch-and-dimension entry of
the squared elementwise difference, hence nonnegative, zero on equal
arguments, and symmetric. -/
theorem C6_mse_properties (A B : Tensor) (h : SameShape A B) :
    compute_mse A B = (sqDiffs A B).sum / (numEntries A : ℝ) ∧
    0 ≤ compute_mse A B ∧ compute_mse A A = 0 ∧
    compute_mse A B = compute_mse B A := by
  refine ⟨?_, compute_mse_nonneg A B, compute_mse_self A, compute_mse_comm A B⟩
  rw [compute_mse, sqDiffs_length A B h]

/-- Witness for C6 at a concrete pair of one-row batches. -/
theorem C6_mse_properties_witness :
    compute_mse [[(1:ℝ), 2]] [[3, 4]]
        = (sqDiffs [[(1:ℝ), 2]] [[3, 4]]).sum / (numEntries [[(1:ℝ), 2]] : ℝ) ∧
    0 ≤ compute_mse [[(1:ℝ), 2]] [[3, 4]] ∧
    compute_mse [[(1:ℝ), 2]] [[(1:ℝ), 2]] = 0 ∧
    compute_mse [[(1:ℝ), 2]] [[3, 4]] = compute_mse [[3, 4]] [[(1:ℝ), 2]] :=
  C6_mse_properties [[(1:ℝ), 2]] [[3, 4]] (by constructor <;> simp)

/-- C5 counterexample: a full run of the Convergence-Order Experiment in
which every error is exactly zero is neither rejected before regression
nor floored: the run returns normally, the error series contains zero,
and the reported slope evaluated in IEEE arithmetic is silently
not-a-number (not finite). -/
theorem C5_no_guard_counterexample :
    inspect_strong_order mainGlobals constEnv = (.ok constOut, constTrace) ∧
    (0:ℝ) ∈ constOut.euler_mses ∧
    fitSlopeNF dts constOut.euler_mses = NF.nan ∧
    (fitSlopeNF dts constOut.euler_mses).isFinite = false := by
  have h0 : (0:ℝ) ∈ constOut.euler_mses := by simp [constOut]
  have hlen : constOut.euler_mses.length = 8 := by simp [constOut]
  have hnn : ∀ m ∈ constOut.euler_mses, 0 ≤ m := by simp [constOut]
  have hnan := fitSlopeNF_nan_of_zero _ hlen h0 hnn
  exact ⟨const_run, h0, hnan, by rw [hnan]; rfl⟩

/-- C5 amended: the implementation does not guard a zero error value:
the zero reaches the logarithm unfloored and the convergence fit, run in
IEEE arithmetic on any nonnegative error series of the length of the run that
contains a zero, silently reports a not-a-number (non-finite) slope. -/
theorem C5_no_guard (ms : List ℝ) (hlen : ms.length = 8) (h0 : (0:ℝ) ∈ ms)
    (hnn : ∀ m ∈ ms, 0 ≤ m) :
    fitSlopeNF dts ms = NF.nan ∧ (fitSlopeNF dts ms).isFinite = false := by
  have hnan := fitSlopeNF_nan_of_zero ms hlen h0 hnn
  exact ⟨hnan, by rw [hnan]; rfl⟩

/-- Witness for C5 at the all-zero error series. -/
theorem C5_no_guard_witness :
    fitSlopeNF dts (List.replicate 8 0) = NF.nan ∧
    (fitSlopeNF dts (List.replicate 8 0)).isFinite = false :=
  C5_no_guard (List.replicate 8 0) (by simp) (by simp) (by simp)

/-- C3 counterexample: the Path Comparison run (batch size 32,
dimensionality 1) writes 32 image files, not dimensionality-many (1):
one file per batch sample. -/
theorem C3_files_counterexample :
    ((inspect_sample mainGlobals constEnv).2.countP Event.isSaveFig) = 32 ∧
    (32 : Nat) ≠ 1 := by
  rw [const_sample_run]
  refine ⟨?_, by decide⟩
  simp [List.countP_append, sampleCalls, Event.isSaveFig, List.countP_map, Function.comp_def]

/-- C3 amended: one image file is produced per row of the
squeezed-then-transposed trajectory; with the hardcoded configuration
(batch size 32, dimensionality 1) that is one file per batch sample,
32 files named by batch index 0 through 31, not one file per output
dimension. -/
theorem C3_files_per_batch_row (env : SolverEnv)
    (h1 : trajShape (env.sdeint y0Sample tsSample (1e-1) bmSample "euler" []) = [100, 32, 1])
    (h2 : trajShape (env.sdeint y0Sample tsSample (1e-1) bmSample "milstein" []) = [100, 32, 1])
    (h3 : trajShape (env.sdeint y0Sample tsSample (1e-1) bmSample "srk"
            [("trapezoidal_approx", false)]) = [100, 32, 1])
    (h4 : trajShape (env.analytical_sample y0Sample tsSample bmSample) = [100, 32, 1]) :
    (inspect_sample mainGlobals env).1 = .ok () ∧
    (inspect_sample mainGlobals env).2.filter Event.isSaveFig
      = (List.range 32).map (fun i => Event.saveFig (toString i)) := by
  rw [sample_run_ok env h1 h2 h3 h4]
  refine ⟨rfl, ?_⟩
  rw [List.filter_append]
  have hcalls : sampleCalls.filter Event.isSaveFig = [] := by
    simp [sampleCalls, Event.isSaveFig]
  rw [hcalls]
  simp [List.filter_map, Event.isSaveFig, Function.comp_def]

/-- Witness for C3 amended in the constant solver environment. -/
theorem C3_files_per_batch_row_witness :
    (inspect_sample mainGlobals constEnv).1 = .ok () ∧
    (inspect_sample mainGlobals constEnv).2.filter Event.isSaveFig
      = (List.range 32).map (fun i => Event.saveFig (toString i)) :=
  C3_files_per_batch_row constEnv trajShape_const_sample trajShape_const_sample
    trajShape_const_sample trajShape_const_sample

lemma strong_body_events (env : SolverEnv) (l : List ℝ) :
    ∀ e ∈ (runSteps (strong_order_step env y0Strong tsStrong bmStrong) l).2,
      ∃ dt, e = Event.solverCall "euler" tsStrong dt bmStrong []
        ∨ e = Event.solverCall "milstein" tsStrong dt bmStrong []
        ∨ e = Event.solverCall "srk" tsStrong dt bmStrong [("trapezoidal_approx", false)]
        ∨ e = Event.analyticalCall tsStrong bmStrong := by
  apply runSteps_events_pred
  intro dt e he
  have hs := step_events_sub env y0Strong tsStrong bmStrong dt e he
  simp only [List.mem_cons, List.not_mem_nil, or_false] at hs
  exact ⟨dt, hs⟩

lemma strong_order_index_spec (env : SolverEnv) (out : StrongOut) (ev : List Event)
    (h : inspect_strong_order mainGlobals env = (.ok out, ev)) (i : Nat)
    (hi : i < dts.length) :
    ∃ dt me mm ms, dts[i]? = some dt ∧
      strong_order_step env y0Strong tsStrong bmStrong dt
        = (some (me, mm, ms),
           [Event.solverCall "euler" tsStrong dt bmStrong [],
            Event.solverCall "milstein" tsStrong dt bmStrong [],
            Event.solverCall "srk" tsStrong dt bmStrong [("trapezoidal_approx", false)],
            Event.analyticalCall tsStrong bmStrong]) ∧
      out.euler_mses[i]? = some me ∧ out.milstein_mses[i]? = some mm ∧
      out.srk_mses[i]? = some ms := by
  obtain ⟨triples, body, hrs, he1, he2, he3, _, _, _, _⟩ := strong_order_run_spec env out ev h
  obtain ⟨hlen, hbody, hidx⟩ := runSteps_ok _ dts triples body hrs
  obtain ⟨dt, a, hdt, ha, hfa⟩ := hidx i hi
  rcases a with ⟨me, mm, ms⟩
  have hfeq : strong_order_step env y0Strong tsStrong bmStrong dt
      = (some (me, mm, ms), (strong_order_step env y0Strong tsStrong bmStrong dt).2) :=
    Prod.ext_iff.mpr ⟨hfa, rfl⟩
  obtain ⟨_, hevents⟩ := step_success env y0Strong tsStrong bmStrong dt me mm ms _ hfeq
  refine ⟨dt, me, mm, ms, hdt, Prod.ext_iff.mpr ⟨hfa, hevents⟩, ?_, ?_, ?_⟩
  · rw [he1]; simp [List.getElem?_map, ha]
  · rw [he2]; simp [List.getElem?_map, ha]
  · rw [he3]; simp [List.getElem?_map, ha]

/-- C7: each error series of the Convergence-Order Experiment is
index-aligned with the step-size series: the i-th entry of every series
is the error triple returned by the loop body run with the i-th step
size. -/
theorem C7_index_alignment (env : SolverEnv) (out : StrongOut) (ev : List Event)
    (h : inspect_strong_order mainGlobals env = (.ok out, ev)) :
    out.euler_mses.length = dts.length ∧ out.milstein_mses.length = dts.length ∧
    out.srk_mses.length = dts.length ∧
    ∀ i, i < dts.length → ∃ dt me mm ms, dts[i]? = some dt ∧
      (strong_order_step env y0Strong tsStrong bmStrong dt).1 = some (me, mm, ms) ∧
      out.euler_mses[i]? = some me ∧ out.milstein_mses[i]? = some mm ∧
      out.srk_mses[i]? = some ms := by
  obtain ⟨triples, body, hrs, he1, he2, he3, _, _, _, _⟩ := strong_order_run_spec env out ev h
  obtain ⟨hlen, _, _⟩ := runSteps_ok _ dts triples body hrs
  refine ⟨by simp [he1, hlen], by simp [he2, hlen], by simp [he3, hlen], ?_⟩
  intro i hi
  obtain ⟨dt, me, mm, ms, hdt, hfeq, g1, g2, g3⟩ := strong_order_index_spec env out ev h i hi
  exact ⟨dt, me, mm, ms, hdt, by rw [hfeq], g1, g2, g3⟩

/-- Witness for C7 in the constant solver environment. -/
theorem C7_index_alignment_witness :
    constOut.euler_mses.length = dts.length ∧ constOut.milstein_mses.length = dts.length ∧
    constOut.srk_mses.length = dts.length ∧
    ∀ i, i < dts.length → ∃ dt me mm ms, dts[i]? = some dt ∧
      (strong_order_step constEnv y0Strong tsStrong bmStrong dt).1 = some (me, mm, ms) ∧
      constOut.euler_mses[i]? = some me ∧ constOut.milstein_mses[i]? = some mm ∧
      constOut.srk_mses[i]? = some ms :=
  C7_index_alignment constEnv constOut constTrace const_run

/-- C4: in the Convergence-Order Experiment the time grid is the
two-point pair (0, 5); every solver and analytical call receives that
grid; each returned trajectory destructures as (initial, terminal) and
only the terminal value enters the error, which compares the scheme
terminal against the analytical terminal. -/
theorem C4_terminal_only (env : SolverEnv) (out : StrongOut) (ev : List Event)
    (h : inspect_strong_order mainGlobals env = (.ok out, ev)) :
    tsStrong = [0, 5] ∧
    (∀ e ∈ ev, ∀ t, e.callTs = some t → t = tsStrong) ∧
    ∀ i, i < dts.length → ∃ dt, dts[i]? = some dt ∧
      ∃ a0 a1 b0 b1 c0 c1 d0 d1,
        env.sdeint y0Strong tsStrong dt bmStrong "euler" [] = [a0, a1] ∧
        env.sdeint y0Strong tsStrong dt bmStrong "milstein" [] = [b0, b1] ∧
        env.sdeint y0Strong tsStrong dt bmStrong "srk" [("trapezoidal_approx", false)]
          = [c0, c1] ∧
        env.analytical_sample y0Strong tsStrong bmStrong = [d0, d1] ∧
        out.euler_mses[i]? = some (compute_mse a1 d1) ∧
        out.milstein_mses[i]? = some (compute_mse b1 d1) ∧
        out.srk_mses[i]? = some (compute_mse c1 d1) := by
  obtain ⟨triples, body, hrs, _, _, _, _, _, _, hev⟩ := strong_order_run_spec env out ev h
  refine ⟨rfl, ?_, ?_⟩
  · intro e he t ht
    rw [hev] at he
    rcases List.mem_cons.mp he with rfl | he2
    · simp [Event.callTs] at ht
    · rcases List.mem_append.mp he2 with he3 | he3
      · obtain ⟨dt, hshape⟩ := strong_body_events env dts e (by rw [hrs]; exact he3)
        rcases hshape with rfl | rfl | rfl | rfl <;>
          simp only [Event.callTs, Option.some.injEq] at ht <;> exact ht.symm
      · simp only [List.mem_singleton] at he3
        subst he3
        simp [Event.callTs] at ht
  · intro i hi
    obtain ⟨dt, me, mm, ms, hdt, hfeq, g1, g2, g3⟩ := strong_order_index_spec env out ev h i hi
    obtain ⟨⟨a0, a1, b0, b1, c0, c1, d0, d1, k1, k2, k3, k4, k5, k6, k7⟩, _⟩ :=
      step_success env y0Strong tsStrong bmStrong dt me mm ms _ hfeq
    refine ⟨dt, hdt, a0, a1, b0, b1, c0, c1, d0, d1, k1, k2, k3, k4, ?_, ?_, ?_⟩
    · rw [g1, k5]
    · rw [g2, k6]
    · rw [g3, k7]

/-- Witness for C4 in the constant solver environment. -/
theorem C4_terminal_only_witness :
    tsStrong = [0, 5] ∧
    (∀ e ∈ constTrace, ∀ t, e.callTs = some t → t = tsStrong) ∧
    ∀ i, i < dts.length → ∃ dt, dts[i]? = some dt ∧
      ∃ a0 a1 b0 b1 c0 c1 d0 d1,
        constEnv.sdeint y0Strong tsStrong dt bmStrong "euler" [] = [a0, a1] ∧
        constEnv.sdeint y0Strong tsStrong dt bmStrong "milstein" [] = [b0, b1] ∧
        constEnv.sdeint y0Strong tsStrong dt bmStrong "srk" [("trapezoidal_approx", false)]
          = [c0, c1] ∧
        constEnv.analytical_sample y0Strong tsStrong bmStrong = [d0, d1] ∧
        constOut.euler_mses[i]? = some (compute_mse a1 d1) ∧
        constOut.milstein_mses[i]? = some (compute_mse b1 d1) ∧
        constOut.srk_mses[i]? = some (compute_mse c1 d1) :=
  C4_terminal_only constEnv constOut constTrace const_run

/-- C1: the Convergence-Order Experiment constructs exactly one noise
realization, anchored at the interval start 0 with a zero initial value
of shape (4096, 10); every solver and analytical call in the trace
carries that same realization, and for every step size of the series the
three scheme calls and the analytical call with that realization occur. -/
theorem C1_shared_noise (env : SolverEnv) (out : StrongOut) (ev : List Event)
    (h : inspect_strong_order mainGlobals env = (.ok out, ev)) :
    bmStrong.t0 = 0 ∧ bmStrong.w0.length = 4096 ∧
    (∀ row ∈ bmStrong.w0, row.length = 10 ∧ ∀ v ∈ row, v = 0) ∧
    ev.countP Event.isBmNew = 1 ∧
    (∀ e ∈ ev, ∀ bm, e.callBm = some bm → bm = bmStrong) ∧
    ∀ dt ∈ dts,
      Event.solverCall "euler" tsStrong dt bmStrong [] ∈ ev ∧
      Event.solverCall "milstein" tsStrong dt bmStrong [] ∈ ev ∧
      Event.solverCall "srk" tsStrong dt bmStrong [("trapezoidal_approx", false)] ∈ ev ∧
      Event.analyticalCall tsStrong bmStrong ∈ ev := by
  obtain ⟨triples, body, hrs, _, _, _, _, _, _, hev⟩ := strong_order_run_spec env out ev h
  refine ⟨rfl, by simp only [bmStrong, y0Strong, zeros_like, ones, List.map_replicate,
    List.length_replicate], ?_, ?_, ?_, ?_⟩
  · intro row hrow
    simp only [bmStrong, y0Strong, zeros_like, ones, List.map_replicate,
      List.mem_replicate] at hrow
    simp [hrow.2]
  · have hbody : body.countP Event.isBmNew = 0 := by
      rw [List.countP_eq_zero]
      intro e he
      obtain ⟨dt, hshape⟩ := strong_body_events env dts e (by rw [hrs]; exact he)
      rcases hshape with rfl | rfl | rfl | rfl <;> simp [Event.isBmNew]
    rw [hev]
    simp [List.countP_cons, List.countP_append, hbody, Event.isBmNew]
  · intro e he bm hbm
    rw [hev] at he
    rcases List.mem_cons.mp he with rfl | he2
    · simp [Event.callBm] at hbm
    · rcases List.mem_append.mp he2 with he3 | he3
      · obtain ⟨dt, hshape⟩ := strong_body_events env dts e (by rw [hrs]; exact he3)
        rcases hshape with rfl | rfl | rfl | rfl <;>
          simp only [Event.callBm, Option.some.injEq] at hbm <;> exact hbm.symm
      · simp only [List.mem_singleton] at he3
        subst he3
        simp [Event.callBm] at hbm
  · intro dt hdt
    obtain ⟨i, hgi⟩ := List.mem_iff_getElem?.mp hdt
    have hi : i < dts.length := by
      by_contra hnot
      rw [List.getElem?_eq_none (by omega)] at hgi
      simp at hgi
    obtain ⟨dt2, me, mm, ms, hdt2, hfeq, _, _, _⟩ := strong_order_index_spec env out ev h i hi
    have hdteq : dt2 = dt := by
      rw [hgi] at hdt2
      exact (Option.some.inj hdt2).symm
    subst hdteq
    obtain ⟨_, hbody, _⟩ := runSteps_ok _ dts triples body hrs
    have hin : ∀ x ∈ [Event.solverCall "euler" tsStrong dt2 bmStrong [],
        Event.solverCall "milstein" tsStrong dt2 bmStrong [],
        Event.solverCall "srk" tsStrong dt2 bmStrong [("trapezoidal_approx", false)],
        Event.analyticalCall tsStrong bmStrong], x ∈ ev := by
      intro x hx
      rw [hev]
      refine List.mem_cons_of_mem _ (List.mem_append_left _ ?_)
      rw [hbody]
      refine List.mem_flatMap.mpr ⟨dt2, hdt, ?_⟩
      rw [show (strong_order_step env y0Strong tsStrong bmStrong dt2).2
            = [Event.solverCall "euler" tsStrong dt2 bmStrong [],
               Event.solverCall "milstein" tsStrong dt2 bmStrong [],
               Event.solverCall "srk" tsStrong dt2 bmStrong [("trapezoidal_approx", false)],
               Event.analyticalCall tsStrong bmStrong] from by rw [hfeq]]
      exact hx
    exact ⟨hin _ (by simp), hin _ (by simp), hin _ (by simp), hin _ (by simp)⟩

/-- Witness for C1 in the constant solver environment. -/
theorem C1_shared_noise_witness :
    bmStrong.t0 = 0 ∧ bmStrong.w0.length = 4096 ∧
    (∀ row ∈ bmStrong.w0, row.length = 10 ∧ ∀ v ∈ row, v = 0) ∧
    constTrace.countP Event.isBmNew = 1 ∧
    (∀ e ∈ constTrace, ∀ bm, e.callBm = some bm → bm = bmStrong) ∧
    ∀ dt ∈ dts,
      Event.solverCall "euler" tsStrong dt bmStrong [] ∈ constTrace ∧
      Event.solverCall "milstein" tsStrong dt bmStrong [] ∈ constTrace ∧
      Event.solverCall "srk" tsStrong dt bmStrong [("trapezoidal_approx", false)] ∈ constTrace ∧
      Event.analyticalCall tsStrong bmStrong ∈ constTrace :=
  C1_shared_noise constEnv constOut constTrace const_run

lemma ols_slope_spec (ys : List ℝ) (hlen : ys.length = 8) :
    IsOlsSlope (dts.map Real.log) ys (linregress_slope (dts.map Real.log) ys) := by
  have hxl : (dts.map Real.log).length = ys.length := by
    simp [dts_length, hlen]
  refine ⟨rfl, fun a b => ols_min _ _ hxl hD_logdts a b, fun a b hle => ?_⟩
  exact ols_unique _ _ hxl hD_logdts _ _ logdts_mem1 logdts_mem2 logdts_ne a b hle

/-- C2: in every completed Convergence-Order run, each reported slope is
the ordinary-least-squares slope of the straight-line fit to the points
whose x values are the natural logs of the step sizes and whose y values
are the natural logs of the corresponding mean-squared errors divided by
two. -/
theorem C2_ols_fit (env : SolverEnv) (out : StrongOut) (ev : List Event)
    (h : inspect_strong_order mainGlobals env = (.ok out, ev)) :
    IsOlsSlope (dts.map Real.log) (out.euler_mses.map (fun m => Real.log m / 2))
      out.euler_slope ∧
    IsOlsSlope (dts.map Real.log) (out.milstein_mses.map (fun m => Real.log m / 2))
      out.milstein_slope ∧
    IsOlsSlope (dts.map Real.log) (out.srk_mses.map (fun m => Real.log m / 2))
      out.srk_slope := by
  obtain ⟨triples, body, hrs, he1, he2, he3, hes, hms, hss, _⟩ :=
    strong_order_run_spec env out ev h
  obtain ⟨hlen, _, _⟩ := runSteps_ok _ dts triples body hrs
  rw [dts_length] at hlen
  refine ⟨?_, ?_, ?_⟩
  · rw [hes]
    exact ols_slope_spec _ (by rw [he1]; simp [hlen])
  · rw [hms]
    exact ols_slope_spec _ (by rw [he2]; simp [hlen])
  · rw [hss]
    exact ols_slope_spec _ (by rw [he3]; simp [hlen])

/-- Witness for C2 in the constant solver environment. -/
theorem C2_ols_fit_witness :
    IsOlsSlope (dts.map Real.log) (constOut.euler_mses.map (fun m => Real.log m / 2))
      constOut.euler_slope :=
  (C2_ols_fit constEnv constOut constTrace const_run).1

lemma strong_trace_events (g : Globals) (env : SolverEnv) :
    ∀ e ∈ (inspect_strong_order g env).2,
      e = Event.bmNew bmStrong ∨ e = Event.saveFig "rate" ∨
      ∃ dt, e = Event.solverCall "euler" tsStrong dt bmStrong []
        ∨ e = Event.solverCall "milstein" tsStrong dt bmStrong []
        ∨ e = Event.solverCall "srk" tsStrong dt bmStrong [("trapezoidal_approx", false)]
        ∨ e = Event.analyticalCall tsStrong bmStrong := by
  intro e he
  unfold inspect_strong_order at he
  cases hg : g.device with
  | none => rw [hg] at he; simp at he
  | some dev =>
    rw [hg] at he
    simp only at he
    split at he
    next ev heq =>
      rcases List.mem_cons.mp he with rfl | he2
      · exact Or.inl rfl
      · exact Or.inr (Or.inr (strong_body_events env dts e
          (by simp only [y0Strong, tsStrong, bmStrong]; rw [heq]; exact he2)))
    next trips ev heq =>
      rcases List.mem_cons.mp he with rfl | he2
      · exact Or.inl rfl
      · rcases List.mem_append.mp he2 with he3 | he3
        · exact Or.inr (Or.inr (strong_body_events env dts e
            (by simp only [y0Strong, tsStrong, bmStrong]; rw [heq]; exact he3)))
        · simp only [List.mem_singleton] at he3
          exact Or.inr (Or.inl he3)

/-- C10: in both experiments, every stochastic Runge-Kutta invocation
passes exactly the scheme option trapezoidal_approx set to false, and
every Euler or Milstein invocation passes no scheme options. -/
theorem C10_scheme_options (g : Globals) (env : SolverEnv) :
    (∀ e ∈ (inspect_sample g env).2, OptionDiscipline e) ∧
    (∀ e ∈ (inspect_strong_order g env).2, OptionDiscipline e) := by
  constructor
  · intro e he
    rcases sample_trace_events g env e he with hc | hs
    · simp only [sampleCalls, List.mem_cons, List.not_mem_nil, or_false] at hc
      rcases hc with rfl | rfl | rfl | rfl | rfl <;>
        simp [OptionDiscipline, Event.methodOf, Event.optionsOf]
    · cases e <;> simp_all [Event.isSaveFig, OptionDiscipline, Event.methodOf, Event.optionsOf]
  · intro e he
    rcases strong_trace_events g env e he with rfl | rfl | ⟨dt, hshape⟩
    · simp [OptionDiscipline, Event.methodOf, Event.optionsOf]
    · simp [OptionDiscipline, Event.methodOf, Event.optionsOf]
    · rcases hshape with rfl | rfl | rfl | rfl <;>
        simp [OptionDiscipline, Event.methodOf, Event.optionsOf]

end SrkDiagonal
